import Mathlib

/-!
Verification of the go.geo Path component (src/path.go): the polyline
codec, the Douglas-Peucker reduction, Bounds, and the index-based
mutation surface.

Modelling conventions.  Float64 coordinates are modelled with exact
rational arithmetic; Go machine integers are modelled as unbounded Int
(the spec design notes require an integer type wide enough to hold
coordinate * factor without overflow, so overflow is out of scope).
Functions that can panic in Go return Option, with none marking the
panic (or, for the recursive reduction worker, fuel exhaustion, which
models divergence).  An encoded polyline string is modelled as its list
of byte values.
-/

namespace geo

/-- A planar point.  In the repository a Point is a [2]float64 with
X = p[0] = Lng and Y = p[1] = Lat; it is an external collaborator of
src/path.go whose contract is fixed by the spec (section 2) and by Decode
pushing Point(lng/f, lat/f) on output. -/
structure Point where
  x : ℚ
  y : ℚ
deriving DecidableEq, Repr

instance : Inhabited Point := ⟨⟨0, 0⟩⟩

/-- Point.Lat returns p[1], the y coordinate. -/
def Point.lat (p : Point) : ℚ := p.y

/-- Point.Lng returns p[0], the x coordinate. -/
def Point.lng (p : Point) : ℚ := p.x

/-! ### Mutation and access surface of Path (path.go 240-305) -/

/-- Path.Push (path.go 287-290): append the (dereferenced) point. -/
def Push (pts : List Point) (pt : Point) : List Point := pts ++ [pt]

/-- Push as called on a Go pointer argument: Push dereferences its *Point
argument, so a nil argument is a nil-dereference panic (none). -/
def PushPtr (pts : List Point) : Option Point → Option (List Point)
  | none => none
  | some pt => some (Push pts pt)

/-- Path.Pop (path.go 292-301): the popped value (nil sentinel when the
path is empty) together with the remaining path. -/
def Pop (pts : List Point) : Option Point × List Point :=
  if h : pts = [] then (none, pts)
  else (some (pts.getLast h), pts.dropLast)

/-- Pop followed immediately by Push of the popped value. -/
def PopPush (pts : List Point) : Option (List Point) :=
  PushPtr (Pop pts).2 (Pop pts).1

/-- Path.GetAt (path.go 249-255).  The source only guards i >= len and
then indexes p.points[i], so a negative i reaches the index expression
and panics (outer none); some none is the nil return. -/
def GetAt (pts : List Point) (i : Int) : Option (Option Point) :=
  if (pts.length : Int) ≤ i then some none
  else if 0 ≤ i then some (some (pts.getD i.toNat default))
  else none

/-- Path.SetAt (path.go 240-246): out-of-range index panics. -/
def SetAt (pts : List Point) (i : Int) (pt : Point) : Option (List Point) :=
  if (pts.length : Int) ≤ i ∨ i < 0 then none
  else some (pts.set i.toNat pt)

/-- Path.InsertAt (path.go 259-274): valid indices are 0..len (len means
append); otherwise panic.  The append-and-shift idiom of the source is
the insertion of pt before index i. -/
def InsertAt (pts : List Point) (i : Int) (pt : Point) : Option (List Point) :=
  if (pts.length : Int) < i ∨ i < 0 then none
  else if i = (pts.length : Int) then some (pts ++ [pt])
  else some (pts.take i.toNat ++ pt :: pts.drop i.toNat)

/-- Path.RemoveAt (path.go 278-285): out-of-range index panics; the
append(points[:i], points[i+1:]...) idiom drops element i. -/
def RemoveAt (pts : List Point) (i : Int) : Option (List Point) :=
  if (pts.length : Int) ≤ i ∨ i < 0 then none
  else some (pts.take i.toNat ++ pts.drop (i.toNat + 1))

/-! ### Polyline codec (path.go 74-175) -/

/-- Go conversion int(q) from float64 to int truncates toward zero; this is
the quantization used at path.go 138-139. -/
def truncInt (q : ℚ) : ℤ := if q < 0 then ⌈q⌉ else ⌊q⌋

/-- The quantized latitude computed by Path.Encode: int(p.Lat() * f). -/
def quantLat (pt : Point) (f : ℚ) : ℤ := truncInt (pt.lat * f)

/-- The quantized longitude computed by Path.Encode: int(p.Lng() * f). -/
def quantLng (pt : Point) (f : ℚ) : ℤ := truncInt (pt.lng * f)

/-- encodeNumber (path.go 164-175): little-endian base-32 groups of 5
bits; every group but the last carries the continuation bit 0x20; each
byte gets +63. -/
def encodeNumber (num : Nat) : List Nat :=
  if h : 0x20 ≤ num then
    ((0x20 ||| (num &&& 0x1f)) + 63) :: encodeNumber (num >>> 5)
  else
    [num + 63]
decreasing_by
  simp only [Nat.shiftRight_eq_div_pow]
  exact Nat.div_lt_self (by omega) (by norm_num)

/-- encodeSignedNumber (path.go 154-162), the zig-zag transform.  On the
unbounded model num << 1 is 2 * num, and the Go complement on a signed
int is x maps to -x - 1; the transformed value is always nonnegative. -/
def encodeSignedNumber (num : Int) : List Nat :=
  let shiftedNum := 2 * num
  let shiftedNum := if num < 0 then -shiftedNum - 1 else shiftedNum
  encodeNumber shiftedNum.toNat

/-- The loop body of Path.Encode (path.go 137-149): quantize each point,
delta against the previous quantized pair (initially 0,0), and emit the
latitude delta then the longitude delta. -/
def encodeLoop (f : ℚ) : List Point → Int → Int → List Nat
  | [], _, _ => []
  | pt :: rest, pLat, pLng =>
    let lat5 := quantLat pt f
    let lng5 := quantLng pt f
    encodeSignedNumber (lat5 - pLat) ++ encodeSignedNumber (lng5 - pLng) ++
      encodeLoop f rest lat5 lng5

/-- Path.Encode with an explicit factor (the Go default for the variadic
factor argument is 100000). -/
def Encode (pts : List Point) (factor : ℤ) : List Nat :=
  encodeLoop (factor : ℚ) pts 0 0

/-- The inner loop of Decode (path.go 88-99): read bytes until one without
the continuation bit, accumulating 5-bit groups.  Reading c gives
b = c - 63; the Go expression b & 0x1f on the (possibly negative) signed
b is the nonnegative residue b mod 32, and the loop continues while
b >= 0x20.  Running out of input inside a number is the
index-out-of-range panic (none). -/
def parseNumber : List Nat → Nat → Nat → Option (Nat × List Nat)
  | [], _, _ => none
  | c :: rest, shift, result =>
    let b : Int := (c : Int) - 63
    let result1 := result ||| ((b % 32).toNat <<< shift)
    if 0x20 ≤ b then parseNumber rest (shift + 5) result1
    else some (result1, rest)

/-- Sign decoding in Decode (path.go 101-106): an odd accumulated code is
complemented after the shift, an even one just shifted. -/
def decodeSigned (result : Nat) : Int :=
  if result &&& 1 ≠ 0 then -(((result >>> 1 : Nat) : Int)) - 1
  else ((result >>> 1 : Nat) : Int)

/-- The outer loop of Decode (path.go 88-119): fields alternate latitude
(even count) and longitude (odd count); each field is added to the
running accumulator, and each completed pair pushes
Point(lng / f, lat / f). -/
def decodeLoop (f : ℚ) (chars : List Nat) (count : Nat) (tLat tLng : Int)
    (points : List Point) : Option (List Point) :=
  match chars with
  | [] => some points
  | c :: cs =>
    match hp : parseNumber (c :: cs) 0 0 with
    | none => none
    | some (r, rest) =>
      let d := decodeSigned r
      if count % 2 = 0 then
        decodeLoop f rest (count + 1) (tLat + d) tLng points
      else
        decodeLoop f rest (count + 1) tLat (tLng + d)
          (Push points ⟨((tLng + d : Int) : ℚ) / f, ((tLat : Int) : ℚ) / f⟩)
termination_by chars.length
decreasing_by
  all_goals
    have key : ∀ (cs : List Nat) (s acc : Nat) (o : Nat × List Nat),
        parseNumber cs s acc = some o → o.2.length < cs.length := by
      intro cs
      induction cs with
      | nil => intro s acc o h; simp [parseNumber] at h
      | cons c cs ih =>
        intro s acc o h
        simp only [parseNumber] at h
        split at h
        · exact Nat.lt_trans (ih _ _ _ h) (Nat.lt_succ_self _)
        · cases h; simp
  all_goals
    have hlen := key _ 0 0 _ hp
    simp only [List.length_cons] at hlen ⊢
    omega

/-- Decode (path.go 77-122) on the byte values of the encoded string,
with an explicit factor (the Go default is 100000). -/
def Decode (chars : List Nat) (factor : ℤ) : Option (List Point) :=
  decodeLoop (factor : ℚ) chars 0 0 0 []

/-- The point Decode reconstructs for an input point: both coordinates
quantized at scale f and mapped back through division by f. -/
def quantizePoint (f : ℚ) (pt : Point) : Point :=
  ⟨((quantLng pt f : ℤ) : ℚ) / f, ((quantLat pt f : ℤ) : ℚ) / f⟩

/-! ### Bounds (path.go 216-236) -/

/-- An axis-aligned bounding rectangle, kept as its south-west and
north-east corners. -/
structure Bound where
  sw : Point
  ne : Point
deriving DecidableEq, Repr

/-- Modelled from the spec: the Bound constructor is not under src/; the
spec (sections 3 and 6) fixes the argument order NewBound(maxX, minX,
maxY, minY), and the bound tests in the repository
(src/unnamed/part_000) pin the normalization: NewBound(east, west,
north, south) has sw = (min east west, min north south) and
ne = (max east west, max north south). -/
def NewBound (east west north south : ℚ) : Bound :=
  ⟨⟨min east west, min north south⟩, ⟨max east west, max north south⟩⟩

/-- The seed math.Inf(1) of the running minima in Path.Bounds. -/
def plusInf : WithTop ℚ := ⊤

/-- The seed math.Inf(-1) of the running maxima in Path.Bounds. -/
def minusInf : WithBot ℚ := ⊥

/-- Path.Bounds (path.go 216-236): for the empty path NewBound(0,0,0,0);
otherwise fold min and max over the coordinates starting from the
infinities and call NewBound(maxY, minY, maxX, minX) - the argument
order the source actually uses.  After a fold over at least one point
the infinities cannot survive, so the unwrap default is never taken. -/
def Bounds (pts : List Point) : Bound :=
  if pts = [] then NewBound 0 0 0 0
  else
    let minX := pts.foldl (fun acc v => min acc ((v.x : ℚ) : WithTop ℚ)) plusInf
    let minY := pts.foldl (fun acc v => min acc ((v.y : ℚ) : WithTop ℚ)) plusInf
    let maxX := pts.foldl (fun acc v => max acc ((v.x : ℚ) : WithBot ℚ)) minusInf
    let maxY := pts.foldl (fun acc v => max acc ((v.y : ℚ) : WithBot ℚ)) minusInf
    NewBound (maxY.unbot' 0) (minY.untop' 0) (maxX.unbot' 0) (minX.untop' 0)

/-! ### Douglas-Peucker reduction (path.go 34-72)

Line.DistanceFrom is an external collaborator (a clamped point-to-segment
distance computed with a square root); the reduction is modelled and
verified for an arbitrary distance function dist taking the two segment
endpoints and the query point. -/

/-- The scan loop of workerReduce (path.go 57-66): for i from start+1
while i < stop, track the maximum distance and the index attaining it,
starting from maxDist = 0 and maxIndex = 0; ties keep the earlier
index. -/
def scanMax (dist : Point → Point → Point → ℚ) (pts : List Point)
    (a b : Point) (stop : Int) (i : Int) (st : ℚ × Int) : ℚ × Int :=
  if i < stop then
    let d := dist a b (pts.getD i.toNat default)
    scanMax dist pts a b stop (i + 1) (if d > st.1 then (d, i) else st)
  else st
termination_by (stop - i).toNat
decreasing_by omega

/-- workerReduce (path.go 51-72), with fuel bounding the recursion depth:
none is either an out-of-range panic on the mask or point accesses, or
fuel exhaustion (modelling the divergence that a negative threshold
causes).  The source marks start and stop in the mask, scans the open
interval for the farthest point, and recurses on both halves when that
distance exceeds the threshold. -/
def workerReduce (dist : Point → Point → Point → ℚ) (pts : List Point) :
    Nat → Int → Int → ℚ → List Nat → Option (List Nat)
  | 0, _, _, _, _ => none
  | fuel + 1, start, stop, threshold, mask =>
    if 0 ≤ start ∧ start < (mask.length : Int) then
      let mask1 := mask.set start.toNat 1
      if 0 ≤ stop ∧ stop < (mask1.length : Int) then
        let mask2 := mask1.set stop.toNat 1
        if start < (pts.length : Int) ∧ stop < (pts.length : Int) then
          let a := pts.getD start.toNat default
          let b := pts.getD stop.toNat default
          let m := scanMax dist pts a b stop (start + 1) (0, 0)
          if m.1 > threshold then
            match workerReduce dist pts fuel start m.2 threshold mask2 with
            | none => none
            | some m3 => workerReduce dist pts fuel m.2 stop threshold m3
          else some mask2
        else none
      else none
    else none

/-- The compaction loop of Path.Reduce (path.go 39-45): walk the mask
with its index i, copying point i down to position count whenever the
mask bit is set. -/
def compactLoop (points : List Point) : List Nat → Nat → Nat → List Point × Nat
  | [], _, count => (points, count)
  | v :: rest, i, count =>
    if v = 1 then
      compactLoop (points.set count (points.getD i default)) rest (i + 1) (count + 1)
    else
      compactLoop points rest (i + 1) count

/-- Path.Reduce (path.go 34-49): build a zero mask of the path length,
run the recursive worker over the whole range 0..len-1 (for the empty
path this immediately indexes the empty mask and panics), then compact
the points to those whose mask bit is 1 and truncate to the new count. -/
def Reduce (dist : Point → Point → Point → ℚ) (pts : List Point)
    (threshold : ℚ) (fuel : Nat) : Option (List Point) :=
  match workerReduce dist pts fuel 0 ((pts.length : Int) - 1) threshold
      (List.replicate pts.length 0) with
  | none => none
  | some mask =>
    let r := compactLoop pts mask 0 0
    some (r.1.take r.2)

/-- The subsequence of points whose mask entry is 1, in order: the
specification of the compaction loop. -/
def maskFilter : List Nat → List Point → List Point
  | [], _ => []
  | _, [] => []
  | v :: ms, q :: qs => if v = 1 then q :: maskFilter ms qs else maskFilter ms qs

/-- Refinement reference for claim C5, following the words of the spec:
lat5 = round(lat * factor), lng5 = round(lng * factor), rounding to the
nearest integer, with the same delta and emission structure as Encode. -/
def specRoundEncodeLoop (f : ℚ) : List Point → Int → Int → List Nat
  | [], _, _ => []
  | pt :: rest, pLat, pLng =>
    let lat5 := round (pt.lat * f)
    let lng5 := round (pt.lng * f)
    encodeSignedNumber (lat5 - pLat) ++ encodeSignedNumber (lng5 - pLng) ++
      specRoundEncodeLoop f rest lat5 lng5

/-- Refinement reference for claim C5: Encode as the spec words it. -/
def specRoundEncode (pts : List Point) (factor : ℤ) : List Nat :=
  specRoundEncodeLoop (factor : ℚ) pts 0 0

/-- The final quantized latitude accumulator after encoding a point list
(the value pLat holds when the Encode loop finishes). -/
def encEndLat (f : ℚ) : List Point → Int → Int
  | [], pLat => pLat
  | pt :: rest, _ => encEndLat f rest (quantLat pt f)

/-- The final quantized longitude accumulator after encoding a point
list. -/
def encEndLng (f : ℚ) : List Point → Int → Int
  | [], pLng => pLng
  | pt :: rest, _ => encEndLng f rest (quantLng pt f)

/-! ### Helper lemmas: bit-level codec facts -/

theorem lor_shiftLeft_eq_add {a b k : Nat} (h : a < 2 ^ k) :
    a ||| (b <<< k) = a + b * 2 ^ k := by
  have hmul : a + b * 2 ^ k = 2 ^ k * b + a := by ring
  rw [hmul]
  apply Nat.eq_of_testBit_eq
  intro j
  rw [Nat.testBit_lor, Nat.testBit_shiftLeft, Nat.testBit_mul_pow_two_add b h j]
  by_cases hj : j < k
  · rw [if_pos hj]
    have hnge : ¬(j ≥ k) := by omega
    simp [hnge]
  · rw [if_neg hj]
    have hge : j ≥ k := by omega
    have ha : a.testBit j = false :=
      Nat.testBit_lt_two_pow
        (lt_of_lt_of_le h (Nat.pow_le_pow_right (by norm_num) hge))
    simp [hge, ha]

theorem or32_eq_add : ∀ x < 32, 32 ||| x = 32 + x := by decide

theorem encodeNumber_ge {num : Nat} (h : 0x20 ≤ num) :
    encodeNumber num = ((0x20 ||| (num &&& 0x1f)) + 63) :: encodeNumber (num >>> 5) := by
  rw [encodeNumber]
  exact dif_pos h

theorem encodeNumber_lt {num : Nat} (h : num < 0x20) :
    encodeNumber num = [num + 63] := by
  rw [encodeNumber]
  exact dif_neg (by omega)

theorem encodeNumber_ne_nil (num : Nat) : encodeNumber num ≠ [] := by
  by_cases h : 0x20 ≤ num
  · rw [encodeNumber_ge h]; simp
  · rw [encodeNumber_lt (by omega)]; simp

theorem parseNumber_group_cont (g : Nat) (hg : g < 32) (rest : List Nat)
    (shift result : Nat) :
    parseNumber ((32 + g + 63) :: rest) shift result
      = parseNumber rest (shift + 5) (result ||| (g <<< shift)) := by
  simp only [parseNumber]
  have hb : ((32 + g + 63 : Nat) : Int) - 63 = ((32 + g : Nat) : Int) := by
    push_cast; ring
  rw [hb]
  have hm : ((((32 + g : Nat) : Int)) % 32).toNat = g := by omega
  rw [hm, if_pos (by omega)]

theorem parseNumber_group_last (g : Nat) (hg : g < 32) (rest : List Nat)
    (shift result : Nat) :
    parseNumber ((g + 63) :: rest) shift result
      = some (result ||| (g <<< shift), rest) := by
  simp only [parseNumber]
  have hb : ((g + 63 : Nat) : Int) - 63 = ((g : Nat) : Int) := by push_cast; ring
  rw [hb]
  have hm : ((((g : Nat) : Int)) % 32).toNat = g := by omega
  rw [hm, if_neg (by omega)]

theorem parseNumber_encodeNumber :
    ∀ (n : Nat) (rest : List Nat) (shift result : Nat),
      result < 2 ^ shift →
      parseNumber (encodeNumber n ++ rest) shift result
        = some (result + n * 2 ^ shift, rest) := by
  intro n
  induction n using Nat.strong_induction_on with
  | _ n ih =>
    intro rest shift result hres
    have hpos : (0:Nat) < 2 ^ shift := Nat.pos_pow_of_pos _ (by norm_num)
    by_cases h : 0x20 ≤ n
    · rw [encodeNumber_ge h, List.cons_append]
      have hand : n &&& 0x1f = n % 32 := by
        have h31 : (0x1f : Nat) = 2 ^ 5 - 1 := by norm_num
        rw [h31, Nat.and_pow_two_sub_one_eq_mod]
      have hor : (0x20 : Nat) ||| (n &&& 0x1f) = 32 + n % 32 := by
        rw [hand]; exact or32_eq_add _ (Nat.mod_lt _ (by norm_num))
      rw [hor, parseNumber_group_cont (n % 32) (Nat.mod_lt _ (by norm_num)),
        lor_shiftLeft_eq_add hres]
      have hlt : result + (n % 32) * 2 ^ shift < 2 ^ (shift + 5) := by
        have h32 : n % 32 ≤ 31 := by omega
        calc result + (n % 32) * 2 ^ shift
            < 32 * 2 ^ shift := by nlinarith
          _ = 2 ^ (shift + 5) := by rw [pow_add]; ring
      rw [ih (n >>> 5) (by
          rw [Nat.shiftRight_eq_div_pow]
          exact Nat.div_lt_self (by omega) (by norm_num)) rest (shift + 5) _ hlt]
      congr 2
      rw [Nat.shiftRight_eq_div_pow, pow_add]
      have hmd : n % 32 + 32 * (n / 32) = n := Nat.mod_add_div n 32
      have h25 : (2:Nat) ^ 5 = 32 := by norm_num
      rw [h25]
      conv_rhs => rw [← hmd]
      ring
    · rw [encodeNumber_lt (by omega), List.cons_append,
        parseNumber_group_last n (by omega), lor_shiftLeft_eq_add hres]
      simp

theorem decodeSigned_zigzag (d : Int) :
    decodeSigned (if d < 0 then -(2 * d) - 1 else 2 * d).toNat = d := by
  simp only [decodeSigned, Nat.and_one_is_mod, Nat.shiftRight_eq_div_pow, pow_one]
  split_ifs <;> omega

theorem parseNumber_encodeSignedNumber (d : Int) (rest : List Nat) :
    parseNumber (encodeSignedNumber d ++ rest) 0 0
      = some ((if d < 0 then -(2 * d) - 1 else 2 * d).toNat, rest) := by
  have h := parseNumber_encodeNumber
    (if d < 0 then -(2 * d) - 1 else 2 * d).toNat rest 0 0 (by norm_num)
  simp only [pow_zero, Nat.zero_add, Nat.mul_one, zero_add, mul_one] at h
  simpa [encodeSignedNumber] using h

theorem encodeSignedNumber_ne_nil (d : Int) : encodeSignedNumber d ≠ [] := by
  simp only [encodeSignedNumber]
  exact encodeNumber_ne_nil _

/-! ### Helper lemmas: the decode loop -/

theorem decodeLoop_nil (f : ℚ) (count : Nat) (tLat tLng : Int)
    (points : List Point) :
    decodeLoop f [] count tLat tLng points = some points := by
  rw [decodeLoop]

theorem decodeLoop_cons (f : ℚ) (c : Nat) (cs : List Nat) (count : Nat)
    (tLat tLng : Int) (points : List Point) (r : Nat) (rest : List Nat)
    (hp : parseNumber (c :: cs) 0 0 = some (r, rest)) :
    decodeLoop f (c :: cs) count tLat tLng points =
      if count % 2 = 0 then
        decodeLoop f rest (count + 1) (tLat + decodeSigned r) tLng points
      else
        decodeLoop f rest (count + 1) tLat (tLng + decodeSigned r)
          (Push points ⟨((tLng + decodeSigned r : Int) : ℚ) / f,
            ((tLat : Int) : ℚ) / f⟩) := by
  rw [decodeLoop]
  split
  · rename_i heq
    rw [hp] at heq
    cases heq
  · rename_i r2 rest2 heq
    rw [hp] at heq
    injection heq with heq2
    injection heq2 with h1 h2
    subst h1
    subst h2
    rfl

theorem decodeLoop_field (f : ℚ) (d : Int) (tail : List Nat) (count : Nat)
    (tLat tLng : Int) (points : List Point) :
    decodeLoop f (encodeSignedNumber d ++ tail) count tLat tLng points =
      if count % 2 = 0 then
        decodeLoop f tail (count + 1) (tLat + d) tLng points
      else
        decodeLoop f tail (count + 1) tLat (tLng + d)
          (Push points ⟨((tLng + d : Int) : ℚ) / f, ((tLat : Int) : ℚ) / f⟩) := by
  have hp := parseNumber_encodeSignedNumber d tail
  have hz := decodeSigned_zigzag d
  cases hE : encodeSignedNumber d with
  | nil => exact absurd hE (encodeSignedNumber_ne_nil d)
  | cons c cs =>
    rw [hE, List.cons_append] at hp
    rw [List.cons_append, decodeLoop_cons f c (cs ++ tail) count tLat tLng points _ tail hp,
      hz]

theorem decodeLoop_encodeLoop_append (f : ℚ) :
    ∀ (pts : List Point) (suffix : List Nat) (count : Nat) (pLat pLng : Int)
      (acc : List Point), count % 2 = 0 →
      decodeLoop f (encodeLoop f pts pLat pLng ++ suffix) count pLat pLng acc
        = decodeLoop f suffix (count + 2 * pts.length)
            (encEndLat f pts pLat) (encEndLng f pts pLng)
            (acc ++ pts.map (quantizePoint f)) := by
  intro pts
  induction pts with
  | nil =>
    intro suffix count pLat pLng acc hcount
    simp [encodeLoop, encEndLat, encEndLng]
  | cons pt rest ih =>
    intro suffix count pLat pLng acc hcount
    simp only [encodeLoop, List.append_assoc]
    rw [decodeLoop_field, if_pos hcount]
    have h1 : pLat + (quantLat pt f - pLat) = quantLat pt f := by ring
    rw [h1, decodeLoop_field, if_neg (by omega)]
    have h2 : pLng + (quantLng pt f - pLng) = quantLng pt f := by ring
    rw [h2, ih suffix (count + 1 + 1) _ _ _ (by omega)]
    have hc2 : count + 1 + 1 + 2 * rest.length = count + 2 * (pt :: rest).length := by
      simp only [List.length_cons]
      omega
    rw [hc2]
    simp [encEndLat, encEndLng, Push, quantizePoint]

theorem decodeLoop_cons_none (f : ℚ) (c : Nat) (cs : List Nat) (count : Nat)
    (tLat tLng : Int) (points : List Point)
    (hp : parseNumber (c :: cs) 0 0 = none) :
    decodeLoop f (c :: cs) count tLat tLng points = none := by
  rw [decodeLoop]
  split
  · rfl
  · rename_i r2 rest2 heq
    rw [hp] at heq
    cases heq

theorem truncInt_spec (q : ℚ) :
    |((truncInt q : ℤ) : ℚ)| ≤ |q| ∧ |q| < |((truncInt q : ℤ) : ℚ)| + 1
      ∧ 0 ≤ q * ((truncInt q : ℤ) : ℚ) := by
  unfold truncInt
  by_cases h : q < 0
  · rw [if_pos h]
    have h1 : q ≤ (⌈q⌉ : ℚ) := Int.le_ceil q
    have h2 : ((⌈q⌉ : ℤ) : ℚ) < q + 1 := Int.ceil_lt_add_one q
    have h3 : ((⌈q⌉ : ℤ) : ℚ) ≤ 0 := by
      have : (⌈q⌉ : ℤ) ≤ ⌈(0 : ℚ)⌉ := Int.ceil_le_ceil (le_of_lt h)
      simpa using (by exact_mod_cast this : ((⌈q⌉ : ℤ) : ℚ) ≤ ((⌈(0:ℚ)⌉ : ℤ) : ℚ))
    rw [abs_of_nonpos h3, abs_of_neg h]
    refine ⟨by linarith, by linarith, ?_⟩
    nlinarith
  · rw [if_neg h]
    push_neg at h
    have h1 : ((⌊q⌋ : ℤ) : ℚ) ≤ q := Int.floor_le q
    have h2 : q < ((⌊q⌋ : ℤ) : ℚ) + 1 := Int.lt_floor_add_one q
    have h3 : (0 : ℚ) ≤ ((⌊q⌋ : ℤ) : ℚ) := by
      have : (0 : ℤ) ≤ ⌊q⌋ := Int.floor_nonneg.mpr h
      exact_mod_cast this
    rw [abs_of_nonneg h3, abs_of_nonneg h]
    refine ⟨h1, h2, ?_⟩
    nlinarith

/-- C1: for every path p and factor f supplied identically to both sides
(and not zero, as a zero float factor would produce NaN coordinates in
Go), Decode(Encode(p, f), f) yields a path with the same number of
points, each point being the quantized original (quantized integer
divided by f), so each decoded coordinate times f is exactly the integer
the encoder computed: no precision is lost beyond the initial
factor-scale quantization. -/
theorem encode_decode_roundtrip (pts : List Point) (factor : ℤ)
    (hf : ((factor : ℤ) : ℚ) ≠ 0) :
    Decode (Encode pts factor) factor
        = some (pts.map (quantizePoint ((factor : ℤ) : ℚ)))
      ∧ (pts.map (quantizePoint ((factor : ℤ) : ℚ))).length = pts.length
      ∧ ∀ i, i < pts.length →
          ((pts.map (quantizePoint ((factor : ℤ) : ℚ))).getD i default).lat
              * ((factor : ℤ) : ℚ)
              = ((quantLat (pts.getD i default) ((factor : ℤ) : ℚ) : ℤ) : ℚ)
            ∧ ((pts.map (quantizePoint ((factor : ℤ) : ℚ))).getD i default).lng
              * ((factor : ℤ) : ℚ)
              = ((quantLng (pts.getD i default) ((factor : ℤ) : ℚ) : ℤ) : ℚ) := by
  have hmain : Decode (Encode pts factor) factor
      = some (pts.map (quantizePoint ((factor : ℤ) : ℚ))) := by
    unfold Decode Encode
    have h0 := decodeLoop_encodeLoop_append ((factor : ℤ) : ℚ) pts [] 0 0 0 []
      (by norm_num)
    rw [List.append_nil] at h0
    rw [h0, decodeLoop_nil]
    simp
  refine ⟨hmain, by simp, ?_⟩
  intro i hi
  have hmap : (pts.map (quantizePoint ((factor : ℤ) : ℚ))).getD i default
      = quantizePoint ((factor : ℤ) : ℚ) (pts.getD i default) := by
    rw [List.getD_eq_getElem?_getD, List.getD_eq_getElem?_getD, List.getElem?_map,
      List.getElem?_eq_getElem hi]
    simp
  rw [hmap]
  unfold quantizePoint Point.lat Point.lng
  constructor
  · exact div_mul_cancel₀ _ hf
  · exact div_mul_cancel₀ _ hf

theorem encode_decode_roundtrip_witness :
    Decode (Encode [(⟨1/2, 3⟩ : Point)] 10) 10
        = some ([(⟨1/2, 3⟩ : Point)].map (quantizePoint (((10 : ℤ) : ℤ) : ℚ)))
      ∧ ([(⟨1/2, 3⟩ : Point)].map (quantizePoint (((10 : ℤ) : ℤ) : ℚ))).length
          = [(⟨1/2, 3⟩ : Point)].length
      ∧ ∀ i, i < [(⟨1/2, 3⟩ : Point)].length →
          (([(⟨1/2, 3⟩ : Point)].map (quantizePoint (((10 : ℤ) : ℤ) : ℚ))).getD i
                default).lat * (((10 : ℤ) : ℤ) : ℚ)
              = ((quantLat ([(⟨1/2, 3⟩ : Point)].getD i default)
                  (((10 : ℤ) : ℤ) : ℚ) : ℤ) : ℚ)
            ∧ (([(⟨1/2, 3⟩ : Point)].map (quantizePoint (((10 : ℤ) : ℤ) : ℚ))).getD i
                default).lng * (((10 : ℤ) : ℤ) : ℚ)
              = ((quantLng ([(⟨1/2, 3⟩ : Point)].getD i default)
                  (((10 : ℤ) : ℤ) : ℚ) : ℤ) : ℚ) :=
  encode_decode_roundtrip [(⟨1/2, 3⟩ : Point)] 10 (by norm_num)

/-- C5 (amended): Encode computes the fixed-point integers by truncating
lat * factor and lng * factor toward zero (the Go int conversion), not
by rounding to the nearest integer.  Truncation toward zero is uniquely
characterized by: the magnitude of the integer is at most the magnitude
of the product, within one of it, and the integer is on the same side of
zero as the product. -/
theorem encode_quantizes_toward_zero (pt : Point) (f : ℚ) :
    (|((quantLat pt f : ℤ) : ℚ)| ≤ |pt.lat * f|
      ∧ |pt.lat * f| < |((quantLat pt f : ℤ) : ℚ)| + 1
      ∧ 0 ≤ pt.lat * f * ((quantLat pt f : ℤ) : ℚ))
    ∧ (|((quantLng pt f : ℤ) : ℚ)| ≤ |pt.lng * f|
      ∧ |pt.lng * f| < |((quantLng pt f : ℤ) : ℚ)| + 1
      ∧ 0 ≤ pt.lng * f * ((quantLng pt f : ℤ) : ℚ)) :=
  ⟨truncInt_spec _, truncInt_spec _⟩

/-- C5 counterexample: the claim says the encoder rounds to the nearest
integer; at the point (0, 3/4) with factor 1 the encoder truncates
3/4 to 0 and emits bytes 63,63, while the round-to-nearest encoder the
spec describes computes 1 and emits bytes 65,63. -/
theorem encode_not_round_counterexample :
    Encode [(⟨0, 3/4⟩ : Point)] 1 = [63, 63]
      ∧ specRoundEncode [(⟨0, 3/4⟩ : Point)] 1 = [65, 63]
      ∧ Encode [(⟨0, 3/4⟩ : Point)] 1 ≠ specRoundEncode [(⟨0, 3/4⟩ : Point)] 1 := by
  have hq1 : quantLat (⟨0, 3/4⟩ : Point) ((1 : ℤ) : ℚ) = 0 := by
    unfold quantLat truncInt Point.lat
    norm_num
  have hq2 : quantLng (⟨0, 3/4⟩ : Point) ((1 : ℤ) : ℚ) = 0 := by
    unfold quantLng truncInt Point.lng
    norm_num
  have hr1 : round ((⟨0, 3/4⟩ : Point).lat * ((1 : ℤ) : ℚ)) = 1 := by
    unfold Point.lat
    norm_num
    rw [round_eq, Int.floor_eq_iff] <;> norm_num
  have hr2 : round ((⟨0, 3/4⟩ : Point).lng * ((1 : ℤ) : ℚ)) = 0 := by
    unfold Point.lng
    norm_num
  have hz : encodeSignedNumber 0 = [63] := by
    have h0 : encodeSignedNumber 0 = encodeNumber 0 := rfl
    rw [h0, encodeNumber_lt (by norm_num)]
  have ho : encodeSignedNumber 1 = [65] := by
    have h1 : encodeSignedNumber 1 = encodeNumber 2 := rfl
    rw [h1, encodeNumber_lt (by norm_num)]
  have he : Encode [(⟨0, 3/4⟩ : Point)] 1 = [63, 63] := by
    unfold Encode encodeLoop
    rw [hq1, hq2]
    norm_num [hz, encodeLoop]
  have hs : specRoundEncode [(⟨0, 3/4⟩ : Point)] 1 = [65, 63] := by
    unfold specRoundEncode specRoundEncodeLoop
    rw [hr1, hr2]
    norm_num [hz, ho, specRoundEncodeLoop]
  refine ⟨he, hs, ?_⟩
  rw [he, hs]
  simp

/-- C6 counterexample: the claim says a malformed encoded string with an
odd number of completed fields is reported as a format error; the code
instead returns successfully.  The one-byte string with byte 63 encodes
exactly one complete field (a dangling latitude), and Decode returns the
empty path with no error signal of any kind. -/
theorem decode_odd_field_no_error : Decode [63] 100000 = some [] := by
  unfold Decode
  have hp : parseNumber [63] 0 0 = some (0, []) := by
    have h := parseNumber_group_last 0 (by norm_num) [] 0 0
    norm_num at h
    exact h
  rw [decodeLoop_cons _ 63 [] 0 0 0 [] 0 [] hp, if_pos (by norm_num),
    decodeLoop_nil]

/-- C6 (amended): Decode reports no format error for malformed input.
Appending one further complete field (an odd dangling latitude field) to
any valid encoding leaves the decoded result unchanged - the dangling
field is silently dropped; appending an unterminated final group (a
single byte with its continuation bit set, byte value at least 95)
makes Decode fault with the index-out-of-range panic rather than
returning a reported decode failure. -/
theorem decode_malformed_behaviour (pts : List Point) (factor d : ℤ) :
    Decode (Encode pts factor ++ encodeSignedNumber d) factor
        = Decode (Encode pts factor) factor
      ∧ ∀ c : Nat, 95 ≤ c →
          Decode (Encode pts factor ++ [c]) factor = none := by
  constructor
  · unfold Decode Encode
    rw [decodeLoop_encodeLoop_append _ pts (encodeSignedNumber d) 0 0 0 []
      (by norm_num)]
    have h0 := decodeLoop_encodeLoop_append ((factor : ℤ) : ℚ) pts [] 0 0 0 []
      (by norm_num)
    rw [List.append_nil] at h0
    rw [h0, decodeLoop_nil]
    rw [← List.append_nil (encodeSignedNumber d), decodeLoop_field,
      if_pos (by omega), decodeLoop_nil]
  · intro c hc
    unfold Decode Encode
    rw [decodeLoop_encodeLoop_append _ pts [c] 0 0 0 [] (by norm_num)]
    have hp : parseNumber [c] 0 0 = none := by
      simp only [parseNumber]
      rw [if_pos (by omega)]
    exact decodeLoop_cons_none _ c [] _ _ _ _ hp

theorem decode_malformed_behaviour_witness :
    Decode (Encode [] 1 ++ encodeSignedNumber 0) 1 = Decode (Encode [] 1) 1
      ∧ Decode (Encode [] 1 ++ [95]) 1 = none :=
  ⟨(decode_malformed_behaviour [] 1 0).1,
    (decode_malformed_behaviour [] 1 0).2 95 (by norm_num)⟩

/-! ### Helper lemmas: masks and the reduction worker -/

theorem getD_set_mono (l : List Nat) (n j : Nat) (h : l.getD j 0 = 1) :
    (l.set n 1).getD j 0 = 1 := by
  simp only [List.getD_eq_getElem?_getD] at h ⊢
  rw [List.getElem?_set]
  split_ifs with h1 h2
  · simp
  · subst h1
    rw [List.getElem?_eq_none (by omega)] at h
    simp at h
  · exact h

theorem getD_set_self_in (l : List Nat) (n : Nat) (h : n < l.length) :
    (l.set n 1).getD n 0 = 1 := by
  simp only [List.getD_eq_getElem?_getD]
  rw [List.getElem?_set_self (by simpa using h)]
  simp

theorem take_set_succ (l : List Point) : ∀ (n : Nat) (a : Point), n < l.length →
    (l.set n a).take (n + 1) = l.take n ++ [a] := by
  induction l with
  | nil => intro n a h; simp at h
  | cons x xs ih =>
    intro n a h
    cases n with
    | zero => simp
    | succ n =>
      simp only [List.set_cons_succ, List.take_succ_cons, List.cons_append]
      rw [ih n a (by simpa using h)]

theorem drop_set_of_lt (l : List Point) (n m : Nat) (a : Point) (h : n < m) :
    (l.set n a).drop m = l.drop m := by
  rw [List.drop_set, if_pos h]

theorem scanMax_stop (dist : Point → Point → Point → ℚ) (pts : List Point)
    (a b : Point) (stop i : Int) (st : ℚ × Int) (h : ¬ i < stop) :
    scanMax dist pts a b stop i st = st := by
  rw [scanMax]
  exact if_neg h

theorem scanMax_step (dist : Point → Point → Point → ℚ) (pts : List Point)
    (a b : Point) (stop i : Int) (st : ℚ × Int) (h : i < stop) :
    scanMax dist pts a b stop i st
      = scanMax dist pts a b stop (i + 1)
          (if dist a b (pts.getD i.toNat default) > st.1
            then (dist a b (pts.getD i.toNat default), i) else st) := by
  rw [scanMax]
  rw [if_pos h]

theorem scanMax_result (dist : Point → Point → Point → ℚ) (pts : List Point)
    (a b : Point) (stop : Int) :
    ∀ (fuel : Nat) (i : Int) (st : ℚ × Int), (stop - i).toNat ≤ fuel →
      scanMax dist pts a b stop i st = st
        ∨ (i ≤ (scanMax dist pts a b stop i st).2
            ∧ (scanMax dist pts a b stop i st).2 < stop) := by
  intro fuel
  induction fuel with
  | zero =>
    intro i st h
    left
    exact scanMax_stop dist pts a b stop i st (by omega)
  | succ fuel ih =>
    intro i st h
    by_cases hlt : i < stop
    · rw [scanMax_step dist pts a b stop i st hlt]
      by_cases hd : dist a b (pts.getD i.toNat default) > st.1
      · rw [if_pos hd]
        right
        rcases ih (i + 1) (dist a b (pts.getD i.toNat default), i) (by omega)
          with h1 | h1
        · rw [h1]
          exact ⟨le_refl i, hlt⟩
        · exact ⟨by omega, h1.2⟩
      · rw [if_neg hd]
        rcases ih (i + 1) st (by omega) with h1 | h1
        · left
          exact h1
        · right
          exact ⟨by omega, h1.2⟩
    · left
      exact scanMax_stop dist pts a b stop i st hlt

theorem workerReduce_sets (dist : Point → Point → Point → ℚ) (pts : List Point) :
    ∀ (fuel : Nat) (start stop : Int) (threshold : ℚ) (mask out : List Nat),
      workerReduce dist pts fuel start stop threshold mask = some out →
      out.length = mask.length
        ∧ (∀ j : Nat, mask.getD j 0 = 1 → out.getD j 0 = 1)
        ∧ out.getD start.toNat 0 = 1 ∧ out.getD stop.toNat 0 = 1 := by
  intro fuel
  induction fuel with
  | zero =>
    intro start stop threshold mask out h
    simp [workerReduce] at h
  | succ fuel ih =>
    intro start stop threshold mask out h
    simp only [workerReduce] at h
    split_ifs at h with h1 h2 h3 h4
    all_goals simp only [List.length_set] at h2 h3 ⊢
    all_goals
      have hstart2 : ((mask.set start.toNat 1).set stop.toNat 1).getD start.toNat 0
          = 1 := by
        by_cases he : stop.toNat = start.toNat
        · rw [he]
          exact getD_set_self_in _ _ (by simp only [List.length_set]; omega)
        · have hbase := getD_set_self_in mask start.toNat (by omega)
          simp only [List.getD_eq_getElem?_getD] at hbase ⊢
          rw [List.getElem?_set_ne he]
          exact hbase
    all_goals
      have hstop2 : ((mask.set start.toNat 1).set stop.toNat 1).getD stop.toNat 0
          = 1 := getD_set_self_in _ _ (by simp only [List.length_set]; omega)
    all_goals
      have hmono2 : ∀ j : Nat, mask.getD j 0 = 1 →
          ((mask.set start.toNat 1).set stop.toNat 1).getD j 0 = 1 := by
        intro j hj
        exact getD_set_mono _ _ _ (getD_set_mono _ _ _ hj)
    case pos =>
      split at h
      · exact absurd h (by simp)
      · rename_i m3 heq
        obtain ⟨l1, mono1, s1, e1⟩ := ih _ _ _ _ _ heq
        obtain ⟨l2, mono2, s2, e2⟩ := ih _ _ _ _ _ h
        refine ⟨by simp only [List.length_set] at l1; rw [l2, l1], ?_, ?_, ?_⟩
        · intro j hj
          exact mono2 _ (mono1 _ (hmono2 _ hj))
        · exact mono2 _ (mono1 _ hstart2)
        · exact e2
    case neg =>
      injection h with h
      subst h
      exact ⟨by simp, hmono2, hstart2, hstop2⟩

theorem workerReduce_succeeds (dist : Point → Point → Point → ℚ)
    (pts : List Point) (threshold : ℚ) (h0 : 0 ≤ threshold) :
    ∀ (fuel : Nat) (start stop : Int) (mask : List Nat),
      0 ≤ start → start ≤ stop → stop < (pts.length : Int) →
      mask.length = pts.length → (stop - start).toNat < fuel →
      ∃ out, workerReduce dist pts fuel start stop threshold mask = some out := by
  intro fuel
  induction fuel with
  | zero =>
    intro start stop mask hs hse hsp hm hf
    omega
  | succ fuel ih =>
    intro start stop mask hs hse hsp hm hf
    simp only [workerReduce, List.length_set]
    rw [if_pos (show 0 ≤ start ∧ start < (mask.length : Int) by omega),
      if_pos (show 0 ≤ stop ∧ stop < (mask.length : Int) by omega),
      if_pos (show start < (pts.length : Int) ∧ stop < (pts.length : Int) by omega)]
    set M := scanMax dist pts (pts.getD start.toNat default)
      (pts.getD stop.toNat default) stop (start + 1) ((0 : ℚ), (0 : Int)) with hM
    by_cases hm1 : M.1 > threshold
    · rw [if_pos hm1]
      have hint : start + 1 ≤ M.2 ∧ M.2 < stop := by
        rcases scanMax_result dist pts (pts.getD start.toNat default)
            (pts.getD stop.toNat default) stop ((stop - (start + 1)).toNat)
            (start + 1) ((0 : ℚ), (0 : Int)) (le_refl _) with hr | hr
        · exfalso
          rw [← hM] at hr
          rw [hr] at hm1
          simp only at hm1
          linarith
        · rw [← hM] at hr
          exact hr
      obtain ⟨m3, hm3⟩ := ih start M.2 ((mask.set start.toNat 1).set stop.toNat 1)
        hs (by omega) (by omega) (by simp [hm]) (by omega)
      obtain ⟨l1, _, _, _⟩ := workerReduce_sets dist pts fuel _ _ _ _ _ hm3
      simp only [List.length_set] at l1
      obtain ⟨out, hout⟩ := ih M.2 stop m3 (by omega) (by omega) hsp
        (by rw [l1, hm]) (by omega)
      refine ⟨out, ?_⟩
      rw [hm3]
      simpa using hout
    · rw [if_neg hm1]
      exact ⟨_, rfl⟩

theorem drop_eq_getD_cons (l : List Point) (i : Nat) (h : i < l.length) :
    l.drop i = l.getD i default :: l.drop (i + 1) := by
  rw [List.drop_eq_getElem_cons h]
  congr 1
  rw [List.getD_eq_getElem?_getD, List.getElem?_eq_getElem h]
  rfl

theorem compactLoop_take :
    ∀ (mask : List Nat) (points : List Point) (i count : Nat),
      count ≤ i → i + mask.length ≤ points.length →
      (compactLoop points mask i count).1.take (compactLoop points mask i count).2
        = points.take count ++ maskFilter mask (points.drop i) := by
  intro mask
  induction mask with
  | nil =>
    intro points i count h1 h2
    simp [compactLoop, maskFilter]
  | cons v rest ih =>
    intro points i count h1 h2
    have hip : i < points.length := by
      simp only [List.length_cons] at h2
      omega
    have hcp : count < points.length := by omega
    simp only [compactLoop]
    by_cases hv : v = 1
    · rw [if_pos hv]
      rw [ih (points.set count (points.getD i default)) (i + 1) (count + 1)
        (by omega) (by simp only [List.length_set]; simp only [List.length_cons] at h2; omega)]
      rw [take_set_succ _ _ _ hcp, drop_set_of_lt _ _ _ _ (by omega),
        drop_eq_getD_cons points i hip, hv]
      simp [maskFilter]
    · rw [if_neg hv]
      rw [ih points (i + 1) count (by omega)
        (by simp only [List.length_cons] at h2; omega)]
      rw [drop_eq_getD_cons points i hip]
      simp only [maskFilter, if_neg hv]

theorem maskFilter_mem :
    ∀ (mask : List Nat) (points : List Point) (j : Nat),
      mask.getD j 0 = 1 → j < points.length →
      points.getD j default ∈ maskFilter mask points := by
  intro mask
  induction mask with
  | nil =>
    intro points j h _
    simp at h
  | cons v rest ih =>
    intro points j hm hj
    cases points with
    | nil => simp at hj
    | cons p ps =>
      cases j with
      | zero =>
        simp only [List.getD_cons_zero] at hm ⊢
        simp [maskFilter, hm]
      | succ j =>
        have hmem := ih ps j (by simpa using hm) (by simpa using hj)
        simp only [List.getD_cons_succ] at hmem ⊢
        by_cases hv : v = 1
        · simp only [maskFilter, if_pos hv]
          exact List.mem_cons_of_mem _ hmem
        · simp only [maskFilter, if_neg hv]
          exact hmem

theorem reduce_some_eq (dist : Point → Point → Point → ℚ) (pts : List Point)
    (threshold : ℚ) (fuel : Nat) (out : List Point)
    (h : Reduce dist pts threshold fuel = some out) :
    ∃ mask, workerReduce dist pts fuel 0 ((pts.length : Int) - 1) threshold
        (List.replicate pts.length 0) = some mask
      ∧ mask.length = pts.length ∧ out = maskFilter mask pts := by
  unfold Reduce at h
  split at h
  · exact absurd h (by simp)
  · rename_i mask heq
    refine ⟨mask, heq, ?_, ?_⟩
    · have hl := (workerReduce_sets dist pts fuel _ _ _ _ _ heq).1
      simpa using hl
    · have hml : mask.length = pts.length := by
        have hl := (workerReduce_sets dist pts fuel _ _ _ _ _ heq).1
        simpa using hl
      injection h with h
      rw [← h, compactLoop_take mask pts 0 0 (le_refl 0) (by omega)]
      simp

/-- C3: for every path of length at least 2 and every threshold, whenever
Reduce completes (returns a compacted path rather than faulting or
diverging), the points at original indices 0 and length-1 are still
present in the result: the worker marks both ends of the top-level range
before recursing and mask bits are never cleared. -/
theorem reduce_keeps_endpoints (dist : Point → Point → Point → ℚ)
    (pts : List Point) (threshold : ℚ) (fuel : Nat) (out : List Point)
    (hlen : 2 ≤ pts.length) (h : Reduce dist pts threshold fuel = some out) :
    pts.getD 0 default ∈ out ∧ pts.getD (pts.length - 1) default ∈ out := by
  obtain ⟨mask, hw, hml, hout⟩ := reduce_some_eq dist pts threshold fuel out h
  obtain ⟨_, _, hstart, hstop⟩ := workerReduce_sets dist pts fuel _ _ _ _ _ hw
  have ht : ((pts.length : Int) - 1).toNat = pts.length - 1 := by omega
  rw [ht] at hstop
  subst hout
  exact ⟨maskFilter_mem mask pts 0 hstart (by omega),
    maskFilter_mem mask pts (pts.length - 1) hstop (by omega)⟩

theorem reduce_keeps_endpoints_witness :
    ((([⟨0, 0⟩, ⟨1, 1⟩] : List Point).getD 0 default) ∈
        ([⟨0, 0⟩, ⟨1, 1⟩] : List Point)
      ∧ (([⟨0, 0⟩, ⟨1, 1⟩] : List Point).getD
          (([⟨0, 0⟩, ⟨1, 1⟩] : List Point).length - 1) default) ∈
        ([⟨0, 0⟩, ⟨1, 1⟩] : List Point)) :=
  reduce_keeps_endpoints (fun _ _ _ => (0 : ℚ)) [⟨0, 0⟩, ⟨1, 1⟩] 0 2
    [⟨0, 0⟩, ⟨1, 1⟩] (by norm_num)
    (by
      unfold Reduce
      have hw : workerReduce (fun _ _ _ => (0 : ℚ)) [⟨0, 0⟩, ⟨1, 1⟩] 2 0
          (((([⟨0, 0⟩, ⟨1, 1⟩] : List Point).length : Int)) - 1) 0
          (List.replicate ([⟨0, 0⟩, ⟨1, 1⟩] : List Point).length 0)
          = some [1, 1] := by
        simp only [workerReduce, List.length_set, List.length_cons,
          List.length_nil, List.length_replicate]
        rw [if_pos (by norm_num), if_pos (by norm_num), if_pos (by norm_num)]
        rw [scanMax_stop _ _ _ _ _ _ _ (by norm_num)]
        rw [if_neg (by norm_num)]
        rfl
      rw [hw]
      rfl)

/-- C4: the claim says a path of length 0 is unaffected by Reduce and
must not fault; the code instead always indexes the empty keep-mask:
Reduce on the empty path calls workerReduce(0, -1) on a zero-length
mask, whose very first statement mask[start] = 1 is an index
out-of-range panic, for every threshold and every recursion budget. -/
theorem reduce_empty_path_faults (dist : Point → Point → Point → ℚ)
    (threshold : ℚ) (fuel : Nat) :
    Reduce dist [] threshold fuel = none := by
  unfold Reduce
  cases fuel with
  | zero => rfl
  | succ fuel =>
    simp [workerReduce]

/-- C10: for every non-empty path and every threshold at least 0, the
recursive worker of Reduce terminates: a recursion budget equal to the
path length suffices for the top-level range (whenever the scanned
maximum exceeds the nonnegative threshold, the maximizing index lies
strictly inside the range, so both sub-ranges are strictly smaller);
and the precondition is genuine: with threshold -1 the worker on the
degenerate range (0, 0) recurses on itself and never returns, whatever
the budget. -/
theorem workerReduce_terminates (dist : Point → Point → Point → ℚ)
    (pts : List Point) (threshold : ℚ) (h0 : 0 ≤ threshold) (hne : pts ≠ []) :
    (∃ out, workerReduce dist pts pts.length 0 ((pts.length : Int) - 1)
        threshold (List.replicate pts.length 0) = some out)
      ∧ ∀ fuel, workerReduce dist pts fuel 0 0 (-1)
          (List.replicate pts.length 0) = none := by
  have hlen : 0 < pts.length := List.length_pos.mpr hne
  constructor
  · exact workerReduce_succeeds dist pts threshold h0 pts.length 0
      ((pts.length : Int) - 1) (List.replicate pts.length 0) (le_refl 0)
      (by omega) (by omega) (by simp) (by omega)
  · have hgen : ∀ (fuel : Nat) (mask : List Nat), mask.length = pts.length →
        workerReduce dist pts fuel 0 0 (-1) mask = none := by
      intro fuel
      induction fuel with
      | zero =>
        intro mask hm
        rfl
      | succ fuel ih =>
        intro mask hm
        simp only [workerReduce, List.length_set]
        rw [if_pos (show (0 : ℤ) ≤ 0 ∧ (0 : ℤ) < (mask.length : Int) by omega),
          if_pos (by omega), if_pos (show (0 : ℤ) < (pts.length : Int)
            ∧ (0 : ℤ) < (pts.length : Int) by omega)]
        rw [scanMax_stop _ _ _ _ _ _ _ (by omega)]
        rw [if_pos (by norm_num)]
        rw [ih ((mask.set (0 : Int).toNat 1).set (0 : Int).toNat 1) (by simp [hm])]
    intro fuel
    exact hgen fuel (List.replicate pts.length 0) (by simp)

theorem workerReduce_terminates_witness :
    (∃ out, workerReduce (fun _ _ _ => (0 : ℚ)) [(⟨0, 0⟩ : Point)]
        ([(⟨0, 0⟩ : Point)]).length 0 ((([(⟨0, 0⟩ : Point)]).length : Int) - 1)
        0 (List.replicate ([(⟨0, 0⟩ : Point)]).length 0) = some out)
      ∧ ∀ fuel, workerReduce (fun _ _ _ => (0 : ℚ)) [(⟨0, 0⟩ : Point)] fuel 0 0
          (-1) (List.replicate ([(⟨0, 0⟩ : Point)]).length 0) = none :=
  workerReduce_terminates (fun _ _ _ => (0 : ℚ)) [⟨0, 0⟩] 0 (le_refl 0)
    (by simp)

/-- C2: the claim says Bounds() on [(0,0),(4,0),(4,3),(0,3)] has corners
(0,0) and (4,3), built through the NewBound(maxX, minX, maxY, minY)
argument order; the code instead calls NewBound(maxY, minY, maxX, minX)
(path.go 235), so the x extent of the bound comes from the y coordinates
and vice versa: the code returns corners (0,0) and (3,4), not (0,0) and
(4,3). -/
theorem bounds_axes_swapped :
    Bounds [⟨0, 0⟩, ⟨4, 0⟩, ⟨4, 3⟩, ⟨0, 3⟩] = ⟨⟨0, 0⟩, ⟨3, 4⟩⟩
      ∧ Bounds [⟨0, 0⟩, ⟨4, 0⟩, ⟨4, 3⟩, ⟨0, 3⟩] ≠ ⟨⟨0, 0⟩, ⟨4, 3⟩⟩ := by
  constructor
  · decide
  · decide

/-- C7: the claim (and the doc comment of GetAt) says GetAt returns nil
for every index outside [0, len), negative indices included; the code
only guards i >= len, so it does return nil above the range and the
point inside the range, but a negative index reaches p.points[i] and
panics instead of returning nil. -/
theorem getAt_negative_panics :
    GetAt [(⟨1, 2⟩ : Point)] (-1) = none
      ∧ GetAt [(⟨1, 2⟩ : Point)] 1 = some none
      ∧ GetAt [(⟨1, 2⟩ : Point)] 0 = some (some ⟨1, 2⟩) := by
  refine ⟨?_, ?_, ?_⟩
  · decide
  · decide
  · decide

/-- C8: the index-error asymmetry: SetAt and RemoveAt panic for any index
outside [0, len), InsertAt panics for any index outside [0, len], while
Pop on the empty path returns the nil no-value sentinel without faulting
and leaves the path empty. -/
theorem index_error_asymmetry (pts : List Point) (i : Int) (pt : Point) :
    ((i < 0 ∨ (pts.length : Int) ≤ i) → SetAt pts i pt = none)
      ∧ ((i < 0 ∨ (pts.length : Int) ≤ i) → RemoveAt pts i = none)
      ∧ ((i < 0 ∨ (pts.length : Int) < i) → InsertAt pts i pt = none)
      ∧ Pop ([] : List Point) = (none, ([] : List Point)) := by
  refine ⟨?_, ?_, ?_, rfl⟩
  · intro h
    unfold SetAt
    rw [if_pos (by omega)]
  · intro h
    unfold RemoveAt
    rw [if_pos (by omega)]
  · intro h
    unfold InsertAt
    rw [if_pos (by omega)]

theorem index_error_asymmetry_witness :
    SetAt [(⟨0, 0⟩ : Point)] (-1) ⟨1, 1⟩ = none
      ∧ RemoveAt [(⟨0, 0⟩ : Point)] (-1) = none
      ∧ InsertAt [(⟨0, 0⟩ : Point)] 2 ⟨1, 1⟩ = none
      ∧ Pop ([] : List Point) = (none, ([] : List Point)) :=
  ⟨(index_error_asymmetry [⟨0, 0⟩] (-1) ⟨1, 1⟩).1 (Or.inl (by norm_num)),
    (index_error_asymmetry [⟨0, 0⟩] (-1) ⟨1, 1⟩).2.1 (Or.inl (by norm_num)),
    (index_error_asymmetry [⟨0, 0⟩] 2 ⟨1, 1⟩).2.2.1 (Or.inr (by norm_num)),
    (index_error_asymmetry [⟨0, 0⟩] 0 ⟨1, 1⟩).2.2.2⟩

/-- C9 counterexample: the claim quantifies over all paths, the empty one
included, but on the empty path Pop returns the nil sentinel and Push
dereferences its nil argument: Pop-then-Push faults with a nil
dereference instead of restoring the empty sequence. -/
theorem pop_push_empty_faults :
    PopPush ([] : List Point) = none
      ∧ PopPush ([] : List Point) ≠ some ([] : List Point) := by
  constructor
  · rfl
  · intro h
    cases h

/-- C9 (amended): for every non-empty path, Pop followed immediately by
Push of the popped value restores exactly the original point
sequence. -/
theorem pop_push_restores (pts : List Point) (h : pts ≠ []) :
    PopPush pts = some pts := by
  have hpop : Pop pts = (some (pts.getLast h), pts.dropLast) := by
    unfold Pop
    rw [dif_neg h]
  unfold PopPush
  rw [hpop]
  show some (pts.dropLast ++ [pts.getLast h]) = some pts
  rw [List.dropLast_concat_getLast h]

theorem pop_push_restores_witness :
    PopPush [(⟨1, 2⟩ : Point)] = some [(⟨1, 2⟩ : Point)] :=
  pop_push_restores [⟨1, 2⟩] (by simp)

end geo
